import Mathlib

/-!
# Verification of the `reto-multiagentes` priority-classification service

Shallow embedding of the repository's two pipelines:

* **Pipeline A** (`ai_priority/`): `app.py` serves `POST /predict` over a
  fitted scikit-learn pipeline produced by `train_priority.py`.
* **Pipeline B** (`training/`): `train_model.py` defines the text-cleaning
  function and trains a random forest; `predict_priority.py` reloads the
  artifacts and predicts a label for one input string.

Machine floats are modelled by `ℚ`, Python strings by `List Char`.
-/

/-! ## Pipeline A: `ai_priority/app.py` -/

/-- The JSON payload accepted by `POST /predict` (`class Payload(BaseModel)`
in `ai_priority/app.py`): five required, typed fields. -/
structure Payload where
  text : String
  domain : String
  vip : Int
  spend30d : ℚ
  eta_to_sla_min : ℚ

/-- The single row of the feature frame `X = pd.DataFrame([{...}])` built by
the handler; the handler copies each payload field through `int(...)` /
`float(...)`, which are identities on the already-typed fields. -/
structure Row where
  text : String
  domain : String
  vip : Int
  spend30d : ℚ
  eta_to_sla_min : ℚ

/-- `X = pd.DataFrame([{ "text": p.text, ... }])` in the handler. -/
def mkRow (p : Payload) : Row :=
  { text := p.text, domain := p.domain, vip := p.vip,
    spend30d := p.spend30d, eta_to_sla_min := p.eta_to_sla_min }

/-- Modelled from the spec: the fitted pipeline artifact loaded by
`pipe = joblib.load("priority_model.joblib")`.  Its training configuration is
`ai_priority/train_priority.py`, but the fitted object itself is an opaque
binary artifact, so we model its interface: `classes_` is the fitted
classifier's list of class labels (nonempty and duplicate-free for any fitted
multiclass model), and `predict_proba` yields the probability row
`pipe.predict_proba(X)[0]`, one entry per class. -/
structure FittedPipeline where
  classes_ : List String
  predict_proba : Row → List ℚ
  classes_ne : classes_ ≠ []
  classes_nodup : classes_.Nodup
  proba_length : ∀ r, (predict_proba r).length = classes_.length

/-- `LABELS = list(pipe.classes_)` in `ai_priority/app.py`. -/
def LABELS (pipe : FittedPipeline) : List String := pipe.classes_

/-- `THRESH_NEEDS_REVIEW = 0.55` in `ai_priority/app.py`. -/
def THRESH_NEEDS_REVIEW : ℚ := 0.55

/-- Model of numpy `arr.max()` on the probability row (nonempty for any
fitted model; the `[]` case is never reached under `FittedPipeline.classes_ne`). -/
def npMax : List ℚ → ℚ
  | [] => 0
  | x :: xs => xs.foldl max x

/-- Model of numpy `arr.argmax()`: the index of the first occurrence of the
maximum value. -/
def npArgmax (l : List ℚ) : Nat := l.indexOf (npMax l)

/-- Model of Python 3 built-in `round` to zero decimal places: round half to
even. -/
def pyRound (q : ℚ) : ℤ :=
  let f := ⌊q⌋
  if q - f < 1/2 then f
  else if 1/2 < q - f then f + 1
  else if f % 2 = 0 then f else f + 1

/-- The JSON object returned by the `/predict` handler;
`proba` is the zip of `LABELS` with the probability row, in that order
(`{lab: float(pr) for lab, pr in zip(LABELS, proba)}`). -/
structure PredictResponse where
  priority : String
  score : ℤ
  proba : List (String × ℚ)
  needs_review : Bool
  model : String

/-- Body of `def predict(p: Payload)` in `ai_priority/app.py`, abstracted
over the module globals it reads (`LABELS`, `THRESH_NEEDS_REVIEW`,
`pipe.predict_proba`). -/
def predictCore (labels : List String) (thresh : ℚ) (probaFn : Row → List ℚ)
    (p : Payload) : PredictResponse :=
  let proba := probaFn (mkRow p)
  let score := npMax proba
  let label := labels.getD (npArgmax proba) ""
  { priority := label
  , score := pyRound (100 * score)
  , proba := labels.zip proba
  , needs_review := decide (score < thresh)
  , model := "tfidf_logreg_v1" }

/-- The `POST /predict` handler of `ai_priority/app.py` with the module
globals instantiated. -/
def predict (pipe : FittedPipeline) (p : Payload) : PredictResponse :=
  predictCore (LABELS pipe) THRESH_NEEDS_REVIEW pipe.predict_proba p

/-- The module-level state of `ai_priority/app.py` after import: the loaded
pipeline object, `LABELS`, and the review threshold. -/
structure ServerState where
  pipe : FittedPipeline
  labels : List String
  thresh : ℚ

/-- Process start (module import): `pipe = joblib.load(...)`,
`LABELS = list(pipe.classes_)`, `THRESH_NEEDS_REVIEW = 0.55`.  The load
happens exactly once, here. -/
def initState (pipe : FittedPipeline) : ServerState :=
  { pipe := pipe, labels := LABELS pipe, thresh := THRESH_NEEDS_REVIEW }

/-- One incoming request: the handler reads the shared module state and
assigns to none of it (the body of `predict` contains no writes to globals),
so the state component is returned unchanged. -/
def handleRequest (st : ServerState) (p : Payload) : PredictResponse × ServerState :=
  (predictCore st.labels st.thresh st.pipe.predict_proba p, st)

/-- Serve a sequence of requests one after another, threading the module
state through the handler. -/
def serveAll (st : ServerState) : List Payload → List PredictResponse × ServerState
  | [] => ([], st)
  | p :: ps =>
    let r := handleRequest st p
    let rest := serveAll r.2 ps
    (r.1 :: rest.1, rest.2)

/-- Modelled from the spec: scikit-learn `OneHotEncoder(handle_unknown="ignore")`
as configured for the `domain`/`vip` columns in `ai_priority/train_priority.py`:
a known category maps to its indicator vector over the trained category list,
an unknown category maps to the all-zero vector instead of raising. -/
def oneHotEncode (categories : List String) (x : String) : List ℚ :=
  categories.map (fun c => if c = x then 1 else 0)

/-! ## Pipeline B: text primitives

Python strings are modelled as `List Char`.  `re.sub(r'\W+', ' ', text)`,
`str.lower()`, `str.split()` and `" ".join(...)` are modelled below. -/

/-- Model of the regex word-character class (Python `\w`): alphanumeric or
underscore.  Its complement is `\W`. -/
def isWordChar (c : Char) : Bool := c.isAlphanum || c = '_'

/-- Worker for `re.sub(r'\W+', ' ', text)`: `inRun` records whether the
previous character belonged to a run of `\W` characters already replaced by
one space. -/
def subW (inRun : Bool) : List Char → List Char
  | [] => []
  | c :: cs =>
    if isWordChar c then c :: subW false cs
    else if inRun then subW true cs
    else ' ' :: subW true cs

/-- `re.sub(r'\W+', ' ', text)`: every maximal run of non-word characters is
replaced by a single space. -/
def pySubNonWord (l : List Char) : List Char := subW false l

/-- Worker for Python `str.split()` with no separator argument: split on runs
of whitespace, producing no empty tokens.  `acc` is the reversed current
token. -/
def pySplitAux : List Char → List Char → List (List Char)
  | [], acc => if acc.isEmpty then [] else [acc.reverse]
  | c :: cs, acc =>
    if c.isWhitespace then
      if acc.isEmpty then pySplitAux cs [] else acc.reverse :: pySplitAux cs []
    else pySplitAux cs (c :: acc)

/-- Python `text.split()`. -/
def pySplit (l : List Char) : List (List Char) := pySplitAux l []

/-- Python `sep.join(words)`. -/
def pyJoin (sep : List Char) : List (List Char) → List Char
  | [] => []
  | [w] => w
  | w :: ws => w ++ sep ++ pyJoin sep ws

/-- Python `text.lower()`, modelled character-wise. -/
def pyLower (l : List Char) : List Char := l.map Char.toLower

/-- The maximal runs of word characters of a string, in order; `acc` is the
reversed run currently being read.  This is the spec-level description of
what `re.sub(r'\W+', ' ', ·)` followed by `str.split()` extracts. -/
def wordRunsAux : List Char → List Char → List (List Char)
  | [], acc => if acc.isEmpty then [] else [acc.reverse]
  | c :: cs, acc =>
    if isWordChar c then wordRunsAux cs (c :: acc)
    else if acc.isEmpty then wordRunsAux cs [] else acc.reverse :: wordRunsAux cs []

/-- The maximal runs of word characters of a string, in order. -/
def wordRuns (l : List Char) : List (List Char) := wordRunsAux l []

/-! ## Pipeline B: `training/train_model.py` and `training/predict_priority.py`

Both files bind `spanish_stopwords = stopwords.words('spanish')`, a fixed
third-party word list fetched at run time; it is modelled as a parameter
`spanish_stopwords : List (List Char)`. -/

namespace train_model

/-- `clean_text` of `training/train_model.py`:
`text.lower()`; `re.sub(r'\W+', ' ', text)`; `text.split()`;
drop words in `spanish_stopwords`; `" ".join(words)`. -/
def clean_text (spanish_stopwords : List (List Char)) (text : List Char) : List Char :=
  let text1 := pyLower text
  let text2 := pySubNonWord text1
  let words := pySplit text2
  let words2 := words.filter (fun w => !spanish_stopwords.contains w)
  pyJoin [' '] words2

end train_model

namespace predict_priority

/-- `clean_text` of `training/predict_priority.py` (the comment in the source
says "igual que en entrenamiento"): `text.lower()`;
`re.sub(r'\W+', ' ', text)`; `text.split()`; drop words in
`spanish_stopwords`; `" ".join(words)`. -/
def clean_text (spanish_stopwords : List (List Char)) (text : List Char) : List Char :=
  let text1 := pyLower text
  let text2 := pySubNonWord text1
  let words := pySplit text2
  let words2 := words.filter (fun w => !spanish_stopwords.contains w)
  pyJoin [' '] words2

end predict_priority

/-- The cleaning transformation exactly as the spec words it: lowercase the
input, take the maximal runs of word characters as tokens (the spec's
"replace every maximal run of non-word characters with a single space" then
"split on whitespace"), drop tokens in the stopword list, rejoin with single
spaces. -/
def cleanTextSpec (spanish_stopwords : List (List Char)) (text : List Char) : List Char :=
  pyJoin [' ']
    ((wordRuns (pyLower text)).filter (fun w => !spanish_stopwords.contains w))

/-- Modelled from the spec: the fitted TF-IDF vectorizer artifact
`vectorizer = joblib.load("training/vectorizer.joblib")`; `transform1` is
`vectorizer.transform([doc])[0]`, total on any cleaned document. -/
structure Vectorizer where
  transform1 : List Char → List ℚ

/-- Modelled from the spec: the fitted random-forest classifier artifact
`clf = joblib.load("training/priority_model.joblib")`.  `classes_` is the
trained label set; `predictList` is `clf.predict`, which returns one label
per input row, each drawn from the trained label set. -/
structure Classifier where
  classes_ : List String
  predictList : List (List ℚ) → List String
  predict_length : ∀ xs, (predictList xs).length = xs.length
  predict_mem : ∀ xs s, s ∈ predictList xs → s ∈ classes_

/-- `predict_priority` of `training/predict_priority.py`:
clean the input, `vectorizer.transform([issue_clean])`, `clf.predict(vect)`,
return `pred[0]`. -/
def predict_priority (clf : Classifier) (vectorizer : Vectorizer)
    (spanish_stopwords : List (List Char)) (issue_text : List Char) : String :=
  let issue_clean := predict_priority.clean_text spanish_stopwords issue_text
  let vect := [vectorizer.transform1 issue_clean]
  let pred := clf.predictList vect
  pred.headD ""

/-- The list of probability values of the returned `proba` mapping, in
response order: the argument of `max(proba.values())` in the spec. -/
def probaValues (r : PredictResponse) : List ℚ := r.proba.map Prod.snd

/-- A small concrete fitted-pipeline stand-in, used to instantiate the
theorems at a closed input. -/
def testPipe : FittedPipeline where
  classes_ := ["high", "low", "medium"]
  predict_proba := fun _ => [0, 0, 1]
  classes_ne := by decide
  classes_nodup := by decide
  proba_length := fun _ => rfl

/-- A concrete valid payload. -/
def testPayload : Payload where
  text := "aire acondicionado roto"
  domain := "rb"
  vip := 1
  spend30d := 120
  eta_to_sla_min := 30

/-- The same payload with a `domain` value outside the trained category set
`["rb", "m"]`. -/
def testPayloadUnknownDomain : Payload :=
  { testPayload with domain := "zz" }

/-! ## Supporting lemmas: `npMax`, `npArgmax`, `pyRound` -/

theorem le_foldl_max (x : ℚ) (xs : List ℚ) : x ≤ xs.foldl max x := by
  induction xs generalizing x with
  | nil => exact le_refl x
  | cons y ys ih =>
    rw [List.foldl_cons]
    exact le_trans (le_max_left x y) (ih (max x y))

theorem foldl_max_mem (x : ℚ) (xs : List ℚ) : xs.foldl max x ∈ x :: xs := by
  induction xs generalizing x with
  | nil => simp
  | cons y ys ih =>
    rw [List.foldl_cons]
    rcases List.mem_cons.mp (ih (max x y)) with h1 | h2
    · rw [h1]
      rcases max_choice x y with hx | hy
      · rw [hx]; exact List.mem_cons_self _ _
      · rw [hy]; exact List.mem_cons.mpr (Or.inr (List.mem_cons_self _ _))
    · exact List.mem_cons.mpr (Or.inr (List.mem_cons.mpr (Or.inr h2)))

theorem mem_le_foldl_max (x v : ℚ) (xs : List ℚ) (hv : v ∈ xs) : v ≤ xs.foldl max x := by
  induction xs generalizing x with
  | nil => cases hv
  | cons y ys ih =>
    rw [List.foldl_cons]
    rcases List.mem_cons.mp hv with h | h
    · subst h; exact le_trans (le_max_right x v) (le_foldl_max _ _)
    · exact ih _ h

theorem npMax_mem {l : List ℚ} (h : l ≠ []) : npMax l ∈ l := by
  cases l with
  | nil => exact absurd rfl h
  | cons x xs => exact foldl_max_mem x xs

theorem le_npMax {l : List ℚ} {v : ℚ} (hv : v ∈ l) : v ≤ npMax l := by
  cases l with
  | nil => cases hv
  | cons x xs =>
    rcases List.mem_cons.mp hv with h | h
    · subst h; exact le_foldl_max _ _
    · exact mem_le_foldl_max x v xs h

theorem npArgmax_lt_length {l : List ℚ} (h : l ≠ []) : npArgmax l < l.length :=
  List.indexOf_lt_length.mpr (npMax_mem h)

theorem getD_npArgmax {l : List ℚ} (h : l ≠ []) : l.getD (npArgmax l) 0 = npMax l := by
  have hlt := npArgmax_lt_length h
  rw [List.getD_eq_getElem l 0 hlt]
  exact List.indexOf_get hlt

theorem npArgmax_first {l : List ℚ} {j : Nat} (hj : j < npArgmax l) :
    l.getD j 0 < npMax l := by
  have hjl : j < l.length := lt_of_lt_of_le hj List.indexOf_le_length
  have hne : (l[j] == npMax l) = false := List.not_of_lt_findIdx hj
  have hmem : l[j] ∈ l := List.getElem_mem hjl
  rw [List.getD_eq_getElem l 0 hjl]
  exact lt_of_le_of_ne (le_npMax hmem) (by simpa using hne)

theorem pyRound_nonneg {q : ℚ} (h : 0 ≤ q) : 0 ≤ pyRound q := by
  have hf : (0 : ℤ) ≤ ⌊q⌋ := Int.floor_nonneg.mpr h
  simp only [pyRound]
  split
  · exact hf
  · split
    · omega
    · split
      · exact hf
      · omega

theorem pyRound_le {q : ℚ} {n : ℤ} (h : q ≤ (n : ℚ)) : pyRound q ≤ n := by
  have hfle : ⌊q⌋ ≤ n := by
    calc ⌊q⌋ ≤ ⌊(n : ℚ)⌋ := Int.floor_le_floor h
    _ = n := Int.floor_intCast n
  have hfq : (⌊q⌋ : ℚ) ≤ q := Int.floor_le q
  simp only [pyRound]
  split
  · exact hfle
  · rename_i h1
    split
    · rename_i h2
      -- here 1/2 < q - ⌊q⌋, so ⌊q⌋ + 1 ≤ n
      by_contra hc
      push_neg at hc
      have hn : n ≤ ⌊q⌋ := by omega
      have : (n : ℚ) ≤ (⌊q⌋ : ℚ) := by exact_mod_cast hn
      linarith
    · rename_i h2
      have heq : q - ⌊q⌋ = 1/2 := le_antisymm (not_lt.mp h2) (not_lt.mp h1)
      have : (⌊q⌋ : ℚ) < (n : ℚ) := by linarith
      have hlt : ⌊q⌋ < n := by exact_mod_cast this
      split
      · exact hfle
      · omega

/-! ## Supporting lemmas: the `/predict` response -/

theorem probaValues_predict (pipe : FittedPipeline) (p : Payload) :
    probaValues (predict pipe p) = pipe.predict_proba (mkRow p) :=
  List.map_snd_zip _ _ (le_of_eq (pipe.proba_length (mkRow p)))

theorem probaKeys_predict (pipe : FittedPipeline) (p : Payload) :
    (predict pipe p).proba.map Prod.fst = LABELS pipe :=
  List.map_fst_zip _ _ (le_of_eq (pipe.proba_length (mkRow p)).symm)

theorem predict_proba_ne_nil (pipe : FittedPipeline) (p : Payload) :
    pipe.predict_proba (mkRow p) ≠ [] := by
  intro h
  have hl := pipe.proba_length (mkRow p)
  rw [h] at hl
  exact pipe.classes_ne (List.length_eq_zero.mp hl.symm)

theorem predict_priority_mem_LABELS (pipe : FittedPipeline) (p : Payload) :
    (predict pipe p).priority ∈ LABELS pipe := by
  have hne := predict_proba_ne_nil pipe p
  have hlt : npArgmax (pipe.predict_proba (mkRow p)) < (LABELS pipe).length := by
    have hx := npArgmax_lt_length hne
    rwa [pipe.proba_length (mkRow p)] at hx
  show (LABELS pipe).getD (npArgmax (pipe.predict_proba (mkRow p))) "" ∈ LABELS pipe
  rw [List.getD_eq_getElem _ _ hlt]
  exact List.getElem_mem hlt

/-! ## Claims C1-C4, C7, C9 (Pipeline A serving) -/

/-- C1: for every valid `/predict` payload, the response field `needs_review`
is `true` if and only if the maximum value among the returned class
probabilities is strictly below the fixed threshold `0.55`; moreover `npMax`
of the returned values is a genuine maximum (it is attained and bounds every
returned value). -/
theorem needs_review_iff_max_below_threshold (pipe : FittedPipeline) (p : Payload) :
    ((predict pipe p).needs_review = true ↔
        npMax (probaValues (predict pipe p)) < 0.55) ∧
    npMax (probaValues (predict pipe p)) ∈ probaValues (predict pipe p) ∧
    ∀ v ∈ probaValues (predict pipe p), v ≤ npMax (probaValues (predict pipe p)) := by
  have hv := probaValues_predict pipe p
  have hne := predict_proba_ne_nil pipe p
  refine ⟨?_, ?_, ?_⟩
  · rw [hv]
    show decide (npMax (pipe.predict_proba (mkRow p)) < THRESH_NEEDS_REVIEW) = true ↔ _
    rw [decide_eq_true_iff]
    exact Iff.rfl
  · rw [hv]; exact npMax_mem hne
  · rw [hv]; intro v hv'; exact le_npMax hv'

/-- C2: for every valid `/predict` payload, `score` equals
`round(100 * max(proba.values()))` with Python's half-to-even rounding, and
whenever every returned probability lies in `[0, 1]`, `score` is an integer
between `0` and `100`. -/
theorem score_eq_round_100_max (pipe : FittedPipeline) (p : Payload)
    (h : ∀ v ∈ pipe.predict_proba (mkRow p), 0 ≤ v ∧ v ≤ 1) :
    (predict pipe p).score
        = pyRound (100 * npMax (probaValues (predict pipe p))) ∧
    0 ≤ (predict pipe p).score ∧ (predict pipe p).score ≤ 100 := by
  have hv := probaValues_predict pipe p
  have hne := predict_proba_ne_nil pipe p
  obtain ⟨h0, h1⟩ := h _ (npMax_mem hne)
  have hsc : (predict pipe p).score
      = pyRound (100 * npMax (pipe.predict_proba (mkRow p))) := rfl
  refine ⟨?_, ?_, ?_⟩
  · rw [hv]; exact hsc
  · rw [hsc]
    exact pyRound_nonneg (mul_nonneg (by norm_num) h0)
  · rw [hsc]
    apply pyRound_le
    push_cast
    linarith

/-- C3: for every valid `/predict` payload, the keys of the returned `proba`
mapping are exactly the model's class labels, `priority` is the label at the
first index attaining the maximal probability (ties resolved to the first
label in `classes_` order), the value at that index is the maximum, every
earlier index holds a strictly smaller value, and `priority` is one of the
model's class labels. -/
theorem priority_is_first_argmax_label (pipe : FittedPipeline) (p : Payload) :
    (predict pipe p).proba.map Prod.fst = LABELS pipe ∧
    (predict pipe p).priority
        = (LABELS pipe).getD (npArgmax (probaValues (predict pipe p))) "" ∧
    (probaValues (predict pipe p)).getD (npArgmax (probaValues (predict pipe p))) 0
        = npMax (probaValues (predict pipe p)) ∧
    (∀ j, j < npArgmax (probaValues (predict pipe p)) →
        (probaValues (predict pipe p)).getD j 0
          < npMax (probaValues (predict pipe p))) ∧
    (predict pipe p).priority ∈ LABELS pipe := by
  have hv := probaValues_predict pipe p
  have hne := predict_proba_ne_nil pipe p
  refine ⟨probaKeys_predict pipe p, ?_, ?_, ?_, predict_priority_mem_LABELS pipe p⟩
  · rw [hv]; rfl
  · rw [hv]; exact getD_npArgmax hne
  · rw [hv]; intro j hj; exact npArgmax_first hj

/-- C4: for every valid `/predict` payload, the returned `proba` mapping has
one entry per model class (its keys are exactly the duplicate-free label
list), its values are the classifier's probabilities passed through
unmodified, and - whenever the classifier's probability row sums to 1 - the
returned values sum to 1. -/
theorem proba_one_entry_per_class_sum_one (pipe : FittedPipeline) (p : Payload)
    (hsum : (pipe.predict_proba (mkRow p)).sum = 1) :
    (predict pipe p).proba.map Prod.fst = LABELS pipe ∧
    (LABELS pipe).Nodup ∧
    probaValues (predict pipe p) = pipe.predict_proba (mkRow p) ∧
    (probaValues (predict pipe p)).sum = 1 :=
  ⟨probaKeys_predict pipe p, pipe.classes_nodup, probaValues_predict pipe p,
   by rw [probaValues_predict pipe p]; exact hsum⟩

/-- C7: for every payload whose `domain` lies outside the trained category
set, the one-hot encoding of `domain` is the all-zero vector (no exception),
and the handler still returns a full response: a `priority` drawn from the
model's labels, a `proba` entry per class, and the fixed `model` identifier. -/
theorem unknown_domain_request_succeeds (cats : List String) (pipe : FittedPipeline)
    (p : Payload) (h : p.domain ∉ cats) :
    oneHotEncode cats p.domain = List.replicate cats.length 0 ∧
    (predict pipe p).priority ∈ LABELS pipe ∧
    (predict pipe p).proba.map Prod.fst = LABELS pipe ∧
    (predict pipe p).model = "tfidf_logreg_v1" := by
  refine ⟨?_, predict_priority_mem_LABELS pipe p, probaKeys_predict pipe p, rfl⟩
  apply List.eq_replicate_iff.mpr
  refine ⟨List.length_map _ _, ?_⟩
  intro b hb
  rcases List.mem_map.mp hb with ⟨c, hc, hcb⟩
  have hcd : c ≠ p.domain := fun hcd => h (hcd ▸ hc)
  rw [← hcb]
  exact if_neg hcd

theorem serveAll_run (st : ServerState) (ps : List Payload) :
    serveAll st ps
      = (ps.map (predictCore st.labels st.thresh st.pipe.predict_proba), st) := by
  induction ps with
  | nil => rfl
  | cons p ps ih => simp [serveAll, handleRequest, ih]

/-- C9: serving any sequence of requests leaves the shared module state (the
loaded pipeline object, `LABELS`, the threshold) exactly as `initState` built
it at process start, and every response is computed against that single
initial state. -/
theorem requests_leave_state_unchanged (pipe : FittedPipeline) (ps : List Payload) :
    serveAll (initState pipe) ps = (ps.map (predict pipe), initState pipe) ∧
    (initState pipe).pipe = pipe ∧
    (initState pipe).labels = LABELS pipe ∧
    (initState pipe).thresh = THRESH_NEEDS_REVIEW :=
  ⟨serveAll_run _ _, rfl, rfl, rfl⟩

/-! ## Claim C8 (Pipeline B inference) -/

/-- C8: given a loaded matching classifier/vectorizer pair, `predict_priority`
returns exactly one label (the single element of `clf.predict`'s output on
the one-row input) and that label belongs to the classifier's trained label
set; the computation is total. -/
theorem predict_priority_returns_one_trained_label (clf : Classifier)
    (vectorizer : Vectorizer) (spanish_stopwords : List (List Char))
    (issue_text : List Char) :
    ∃ s, clf.predictList [vectorizer.transform1
            (predict_priority.clean_text spanish_stopwords issue_text)] = [s] ∧
      predict_priority clf vectorizer spanish_stopwords issue_text = s ∧
      s ∈ clf.classes_ := by
  obtain ⟨s, hs⟩ := List.length_eq_one.mp (clf.predict_length
    [vectorizer.transform1 (predict_priority.clean_text spanish_stopwords issue_text)])
  refine ⟨s, hs, ?_, ?_⟩
  · show (clf.predictList [vectorizer.transform1
        (predict_priority.clean_text spanish_stopwords issue_text)]).headD "" = s
    rw [hs]
    rfl
  · exact clf.predict_mem _ s (by rw [hs]; exact List.mem_singleton_self s)

/-- Witness for C2 at a concrete pipeline and payload; the probability-range
hypothesis is discharged by evaluation. -/
theorem score_eq_round_100_max_witness :
    (predict testPipe testPayload).score
        = pyRound (100 * npMax (probaValues (predict testPipe testPayload))) ∧
    0 ≤ (predict testPipe testPayload).score ∧
    (predict testPipe testPayload).score ≤ 100 :=
  score_eq_round_100_max testPipe testPayload (by simp [testPipe])

/-- Witness for C4 at a concrete pipeline and payload; the sum-to-one
hypothesis is discharged by evaluation. -/
theorem proba_one_entry_per_class_sum_one_witness :
    (predict testPipe testPayload).proba.map Prod.fst = LABELS testPipe ∧
    (LABELS testPipe).Nodup ∧
    probaValues (predict testPipe testPayload)
        = testPipe.predict_proba (mkRow testPayload) ∧
    (probaValues (predict testPipe testPayload)).sum = 1 :=
  proba_one_entry_per_class_sum_one testPipe testPayload
    (by simp [testPipe, List.sum_cons, List.sum_nil])

/-- Witness for C7 at a concrete payload whose `domain` is outside the
trained category set; the non-membership hypothesis is discharged by
evaluation. -/
theorem unknown_domain_request_succeeds_witness :
    oneHotEncode ["rb", "m"] testPayloadUnknownDomain.domain
        = List.replicate (["rb", "m"] : List String).length 0 ∧
    (predict testPipe testPayloadUnknownDomain).priority ∈ LABELS testPipe ∧
    (predict testPipe testPayloadUnknownDomain).proba.map Prod.fst = LABELS testPipe ∧
    (predict testPipe testPayloadUnknownDomain).model = "tfidf_logreg_v1" :=
  unknown_domain_request_succeeds ["rb", "m"] testPipe testPayloadUnknownDomain
    (by decide)

/-! ## Supporting lemmas: text cleaning -/

theorem whitespace_not_wordChar {c : Char} (h : c.isWhitespace = true) :
    isWordChar c = false := by
  have hc : ((c = ' ' ∨ c = '\t') ∨ c = '\r') ∨ c = '\n' := by
    simpa [Char.isWhitespace] using h
  rcases hc with ((h | h) | h) | h <;> subst h <;> decide

theorem not_whitespace_of_wordChar {c : Char} (h : isWordChar c = true) :
    c.isWhitespace = false := by
  cases hw : c.isWhitespace
  · rfl
  · rw [whitespace_not_wordChar hw] at h; cases h

theorem subW_cons_word {c : Char} (hw : isWordChar c = true) (b : Bool) (cs : List Char) :
    subW b (c :: cs) = c :: subW false cs := by
  simp [subW, hw]

theorem subW_cons_nonword_true {c : Char} (hw : isWordChar c = false) (cs : List Char) :
    subW true (c :: cs) = subW true cs := by
  simp [subW, hw]

theorem subW_cons_nonword_false {c : Char} (hw : isWordChar c = false) (cs : List Char) :
    subW false (c :: cs) = ' ' :: subW true cs := by
  simp [subW, hw]

theorem pySplitAux_cons_nonws {c : Char} (hc : c.isWhitespace = false)
    (cs acc : List Char) :
    pySplitAux (c :: cs) acc = pySplitAux cs (c :: acc) := by
  simp [pySplitAux, hc]

theorem pySplitAux_cons_ws_nil {c : Char} (hc : c.isWhitespace = true) (cs : List Char) :
    pySplitAux (c :: cs) [] = pySplitAux cs [] := by
  simp [pySplitAux, hc]

theorem pySplitAux_cons_ws_ne {c : Char} (hc : c.isWhitespace = true)
    (cs : List Char) {acc : List Char} (hacc : acc ≠ []) :
    pySplitAux (c :: cs) acc = acc.reverse :: pySplitAux cs [] := by
  obtain ⟨a, as, rfl⟩ := List.exists_cons_of_ne_nil hacc
  simp [pySplitAux, hc]

theorem wordRunsAux_cons_word {c : Char} (hw : isWordChar c = true)
    (cs acc : List Char) :
    wordRunsAux (c :: cs) acc = wordRunsAux cs (c :: acc) := by
  simp [wordRunsAux, hw]

theorem wordRunsAux_cons_nonword_nil {c : Char} (hw : isWordChar c = false)
    (cs : List Char) :
    wordRunsAux (c :: cs) [] = wordRunsAux cs [] := by
  simp [wordRunsAux, hw]

theorem wordRunsAux_cons_nonword_ne {c : Char} (hw : isWordChar c = false)
    (cs : List Char) {acc : List Char} (hacc : acc ≠ []) :
    wordRunsAux (c :: cs) acc = acc.reverse :: wordRunsAux cs [] := by
  obtain ⟨a, as, rfl⟩ := List.exists_cons_of_ne_nil hacc
  simp [wordRunsAux, hw]

theorem pySplitAux_subW (l : List Char) :
    (∀ b, pySplitAux (subW b l) [] = wordRunsAux l []) ∧
    (∀ acc, acc ≠ [] → pySplitAux (subW false l) acc = wordRunsAux l acc) := by
  induction l with
  | nil => exact ⟨fun b => rfl, fun acc hacc => rfl⟩
  | cons c cs ih =>
    obtain ⟨ih1, ih2⟩ := ih
    constructor
    · intro b
      cases hw : isWordChar c
      · cases b
        · rw [subW_cons_nonword_false hw, pySplitAux_cons_ws_nil (by decide),
              ih1 true, wordRunsAux_cons_nonword_nil hw]
        · rw [subW_cons_nonword_true hw, ih1 true,
              wordRunsAux_cons_nonword_nil hw]
      · rw [subW_cons_word hw, pySplitAux_cons_nonws (not_whitespace_of_wordChar hw),
            wordRunsAux_cons_word hw]
        exact ih2 [c] (by simp)
    · intro acc hacc
      cases hw : isWordChar c
      · rw [subW_cons_nonword_false hw, pySplitAux_cons_ws_ne (by decide) _ hacc,
            ih1 true, wordRunsAux_cons_nonword_ne hw _ hacc]
      · rw [subW_cons_word hw, pySplitAux_cons_nonws (not_whitespace_of_wordChar hw),
            wordRunsAux_cons_word hw]
        exact ih2 (c :: acc) (by simp)

theorem pySplit_pySubNonWord (l : List Char) : pySplit (pySubNonWord l) = wordRuns l :=
  (pySplitAux_subW l).1 false

/-! ## Claims C5, C6 (Pipeline B text cleaning) -/

theorem clean_text_eq_cleanTextSpec (spanish_stopwords : List (List Char))
    (text : List Char) :
    train_model.clean_text spanish_stopwords text
      = cleanTextSpec spanish_stopwords text := by
  show pyJoin [' ']
      ((pySplit (pySubNonWord (pyLower text))).filter
        (fun w => !spanish_stopwords.contains w))
    = pyJoin [' ']
      ((wordRuns (pyLower text)).filter (fun w => !spanish_stopwords.contains w))
  rw [pySplit_pySubNonWord]

/-- C5: for every input string, Pipeline B's `clean_text` returns the string
obtained by lowercasing the input, replacing every maximal run of non-word
characters with a single space, splitting on whitespace (equivalently:
taking the maximal word-character runs of the lowercased input), dropping
every token in the fixed Spanish stopword list, and rejoining the survivors
with single spaces. -/
theorem clean_text_follows_spec (spanish_stopwords : List (List Char))
    (text : List Char) :
    train_model.clean_text spanish_stopwords text
      = cleanTextSpec spanish_stopwords text :=
  clean_text_eq_cleanTextSpec spanish_stopwords text

/-- C6: the cleaning function used at Pipeline B inference time
(`predict_priority.py`) is extensionally equal to the one used at training
time (`train_model.py`): the two sources contain the identical four-step
body over the same stopword list. -/
theorem clean_text_inference_eq_training (spanish_stopwords : List (List Char))
    (text : List Char) :
    predict_priority.clean_text spanish_stopwords text
      = train_model.clean_text spanish_stopwords text := rfl

/-! ## Supporting lemmas: idempotence of the cleaning pipeline -/

theorem char_toNat_ofNat_small {n : Nat} (h : n < 0xd800) :
    (Char.ofNat n).toNat = n := by
  unfold Char.ofNat
  rw [dif_pos (Or.inl h : n.isValidChar)]
  rfl

theorem toLower_of_upper {c : Char} (h : 65 ≤ c.toNat ∧ c.toNat ≤ 90) :
    c.toLower = Char.ofNat (c.toNat + 32) := by
  simp only [Char.toLower]
  rw [if_pos h]

theorem toLower_of_not_upper {c : Char} (h : ¬(65 ≤ c.toNat ∧ c.toNat ≤ 90)) :
    c.toLower = c := by
  simp only [Char.toLower]
  rw [if_neg h]

theorem toLower_toLower (c : Char) : c.toLower.toLower = c.toLower := by
  by_cases h : 65 ≤ c.toNat ∧ c.toNat ≤ 90
  · rw [toLower_of_upper h]
    apply toLower_of_not_upper
    rw [char_toNat_ofNat_small (by omega)]
    omega
  · rw [toLower_of_not_upper h, toLower_of_not_upper h]

theorem wordRunsAux_nil_ne {acc : List Char} (ha : acc ≠ []) :
    wordRunsAux [] acc = [acc.reverse] := by
  obtain ⟨a, as, rfl⟩ := List.exists_cons_of_ne_nil ha
  simp [wordRunsAux]

theorem mem_of_mem_wordRunsAux :
    ∀ (l acc w : List Char) (c : Char),
      w ∈ wordRunsAux l acc → c ∈ w → c ∈ l ∨ c ∈ acc := by
  intro l
  induction l with
  | nil =>
    intro acc w c hw hc
    by_cases ha : acc = []
    · subst ha; simp [wordRunsAux] at hw
    · rw [wordRunsAux_nil_ne ha] at hw
      rcases List.mem_singleton.mp hw with rfl
      exact Or.inr (List.mem_reverse.mp hc)
  | cons d ds ih =>
    intro acc w c hw hc
    cases hd : isWordChar d
    · by_cases ha : acc = []
      · subst ha
        rw [wordRunsAux_cons_nonword_nil hd] at hw
        rcases ih [] w c hw hc with h | h
        · exact Or.inl (List.mem_cons.mpr (Or.inr h))
        · cases h
      · rw [wordRunsAux_cons_nonword_ne hd _ ha] at hw
        rcases List.mem_cons.mp hw with h | h
        · subst h
          exact Or.inr (List.mem_reverse.mp hc)
        · rcases ih [] w c h hc with h2 | h2
          · exact Or.inl (List.mem_cons.mpr (Or.inr h2))
          · cases h2
    · rw [wordRunsAux_cons_word hd] at hw
      rcases ih (d :: acc) w c hw hc with h | h
      · exact Or.inl (List.mem_cons.mpr (Or.inr h))
      · rcases List.mem_cons.mp h with h2 | h2
        · exact Or.inl (List.mem_cons.mpr (Or.inl h2))
        · exact Or.inr h2

theorem wordChar_of_mem_wordRunsAux :
    ∀ (l acc w : List Char) (c : Char), (∀ a ∈ acc, isWordChar a = true) →
      w ∈ wordRunsAux l acc → c ∈ w → isWordChar c = true := by
  intro l
  induction l with
  | nil =>
    intro acc w c hacc hw hc
    by_cases ha : acc = []
    · subst ha; simp [wordRunsAux] at hw
    · rw [wordRunsAux_nil_ne ha] at hw
      rcases List.mem_singleton.mp hw with rfl
      exact hacc c (List.mem_reverse.mp hc)
  | cons d ds ih =>
    intro acc w c hacc hw hc
    cases hd : isWordChar d
    · by_cases ha : acc = []
      · subst ha
        rw [wordRunsAux_cons_nonword_nil hd] at hw
        exact ih [] w c (fun a ha2 => absurd ha2 (List.not_mem_nil a)) hw hc
      · rw [wordRunsAux_cons_nonword_ne hd _ ha] at hw
        rcases List.mem_cons.mp hw with h | h
        · subst h; exact hacc c (List.mem_reverse.mp hc)
        · exact ih [] w c (fun a ha2 => absurd ha2 (List.not_mem_nil a)) h hc
    · rw [wordRunsAux_cons_word hd] at hw
      refine ih (d :: acc) w c ?_ hw hc
      intro a ha2
      rcases List.mem_cons.mp ha2 with h | h
      · subst h; exact hd
      · exact hacc a h

theorem ne_nil_of_mem_wordRunsAux :
    ∀ (l acc w : List Char), w ∈ wordRunsAux l acc → w ≠ [] := by
  intro l
  induction l with
  | nil =>
    intro acc w hw
    by_cases ha : acc = []
    · subst ha; simp [wordRunsAux] at hw
    · rw [wordRunsAux_nil_ne ha] at hw
      rcases List.mem_singleton.mp hw with rfl
      simpa using ha
  | cons d ds ih =>
    intro acc w hw
    cases hd : isWordChar d
    · by_cases ha : acc = []
      · subst ha
        rw [wordRunsAux_cons_nonword_nil hd] at hw
        exact ih [] w hw
      · rw [wordRunsAux_cons_nonword_ne hd _ ha] at hw
        rcases List.mem_cons.mp hw with h | h
        · subst h; simpa using ha
        · exact ih [] w h
    · rw [wordRunsAux_cons_word hd] at hw
      exact ih (d :: acc) w hw

theorem wordRunsAux_append_word :
    ∀ (w : List Char), (∀ c ∈ w, isWordChar c = true) →
      ∀ (rest acc : List Char),
        wordRunsAux (w ++ rest) acc = wordRunsAux rest (w.reverse ++ acc) := by
  intro w
  induction w with
  | nil => intro hw rest acc; simp
  | cons c cs ih =>
    intro hw rest acc
    have hc : isWordChar c = true := hw c (List.mem_cons_self _ _)
    rw [List.cons_append, wordRunsAux_cons_word hc]
    rw [ih (fun a ha => hw a (List.mem_cons.mpr (Or.inr ha))) rest (c :: acc)]
    congr 1
    simp

theorem wordRuns_pyJoin (ts : List (List Char))
    (hne : ∀ t ∈ ts, t ≠ [])
    (hw : ∀ t ∈ ts, ∀ c ∈ t, isWordChar c = true) :
    wordRuns (pyJoin [' '] ts) = ts := by
  induction ts with
  | nil => rfl
  | cons w ws ih =>
    have hww : ∀ c ∈ w, isWordChar c = true := hw w (List.mem_cons_self _ _)
    have hwne : w ≠ [] := hne w (List.mem_cons_self _ _)
    have hwrne : w.reverse ≠ [] := by simpa using hwne
    cases ws with
    | nil =>
      show wordRunsAux (pyJoin [' '] [w]) [] = [w]
      have h1 : pyJoin [' '] [w] = w ++ [] := (List.append_nil w).symm
      rw [h1, wordRunsAux_append_word w hww [] [], List.append_nil,
          wordRunsAux_nil_ne hwrne, List.reverse_reverse]
    | cons w2 ws2 =>
      have h1 : pyJoin [' '] (w :: w2 :: ws2)
          = w ++ (' ' :: pyJoin [' '] (w2 :: ws2)) := by
        show w ++ [' '] ++ pyJoin [' '] (w2 :: ws2) = _
        rw [List.append_assoc]
        rfl
      show wordRunsAux (pyJoin [' '] (w :: w2 :: ws2)) [] = w :: w2 :: ws2
      rw [h1, wordRunsAux_append_word w hww _ [], List.append_nil,
          wordRunsAux_cons_nonword_ne (by decide) _ hwrne, List.reverse_reverse]
      have ih2 := ih (fun t ht => hne t (List.mem_cons.mpr (Or.inr ht)))
                     (fun t ht => hw t (List.mem_cons.mpr (Or.inr ht)))
      show w :: wordRunsAux (pyJoin [' '] (w2 :: ws2)) [] = w :: w2 :: ws2
      rw [show wordRunsAux (pyJoin [' '] (w2 :: ws2)) [] = wordRuns (pyJoin [' '] (w2 :: ws2)) from rfl]
      rw [ih2]

theorem mem_pyJoin :
    ∀ (ts : List (List Char)) (c : Char), c ∈ pyJoin [' '] ts →
      c = ' ' ∨ ∃ t ∈ ts, c ∈ t := by
  intro ts
  induction ts with
  | nil => intro c hc; cases hc
  | cons w ws ih =>
    intro c hc
    cases ws with
    | nil =>
      exact Or.inr ⟨w, List.mem_cons_self _ _, hc⟩
    | cons w2 ws2 =>
      have h1 : pyJoin [' '] (w :: w2 :: ws2)
          = w ++ [' '] ++ pyJoin [' '] (w2 :: ws2) := rfl
      rw [h1] at hc
      rcases List.mem_append.mp hc with h | h
      · rcases List.mem_append.mp h with h2 | h2
        · exact Or.inr ⟨w, List.mem_cons_self _ _, h2⟩
        · left; simpa using h2
      · rcases ih c h with h2 | ⟨t, ht, hct⟩
        · exact Or.inl h2
        · exact Or.inr ⟨t, List.mem_cons.mpr (Or.inr ht), hct⟩

theorem pyLower_fixed :
    ∀ (l : List Char), (∀ c ∈ l, c.toLower = c) → pyLower l = l := by
  intro l
  induction l with
  | nil => intro h; rfl
  | cons c cs ih =>
    intro h
    show c.toLower :: cs.map Char.toLower = c :: cs
    rw [h c (List.mem_cons_self _ _)]
    rw [show cs.map Char.toLower = pyLower cs from rfl]
    rw [ih (fun a ha => h a (List.mem_cons.mpr (Or.inr ha)))]

theorem filter_self_filter {α : Type} (p : α → Bool) (l : List α) :
    (l.filter p).filter p = l.filter p := by
  rw [List.filter_filter]
  simp

theorem cleanTextSpec_idem (sw : List (List Char)) (text : List Char) :
    cleanTextSpec sw (cleanTextSpec sw text) = cleanTextSpec sw text := by
  have hts_mem : ∀ t ∈ (wordRuns (pyLower text)).filter (fun w => !sw.contains w),
      t ∈ wordRuns (pyLower text) := fun t ht => List.mem_of_mem_filter ht
  have hne : ∀ t ∈ (wordRuns (pyLower text)).filter (fun w => !sw.contains w),
      t ≠ [] := fun t ht => ne_nil_of_mem_wordRunsAux _ _ t (hts_mem t ht)
  have hw : ∀ t ∈ (wordRuns (pyLower text)).filter (fun w => !sw.contains w),
      ∀ c ∈ t, isWordChar c = true := fun t ht c hc =>
    wordChar_of_mem_wordRunsAux _ [] t c (fun a ha => absurd ha (List.not_mem_nil a))
      (hts_mem t ht) hc
  have hlow : ∀ t ∈ (wordRuns (pyLower text)).filter (fun w => !sw.contains w),
      ∀ c ∈ t, c.toLower = c := by
    intro t ht c hc
    have hcl : c ∈ pyLower text := by
      rcases mem_of_mem_wordRunsAux (pyLower text) [] t c (hts_mem t ht) hc with h | h
      · exact h
      · cases h
    rcases List.mem_map.mp hcl with ⟨c0, _, hc0⟩
    rw [← hc0]
    exact toLower_toLower c0
  have h1 : pyLower (pyJoin [' ']
        ((wordRuns (pyLower text)).filter (fun w => !sw.contains w)))
      = pyJoin [' '] ((wordRuns (pyLower text)).filter (fun w => !sw.contains w)) := by
    apply pyLower_fixed
    intro c hc
    rcases mem_pyJoin _ c hc with h | ⟨t, ht, hct⟩
    · subst h; decide
    · exact hlow t ht c hct
  have h2 : wordRuns (pyJoin [' ']
        ((wordRuns (pyLower text)).filter (fun w => !sw.contains w)))
      = (wordRuns (pyLower text)).filter (fun w => !sw.contains w) :=
    wordRuns_pyJoin _ hne hw
  show pyJoin [' ']
      ((wordRuns (pyLower (pyJoin [' ']
        ((wordRuns (pyLower text)).filter (fun w => !sw.contains w))))).filter
          (fun w => !sw.contains w))
    = pyJoin [' '] ((wordRuns (pyLower text)).filter (fun w => !sw.contains w))
  rw [h1, h2, filter_self_filter]

/-! ## Claim C10 (idempotence of `clean_text`) -/

/-- C10: Pipeline B's `clean_text` is idempotent: cleaning an already-cleaned
string returns it unchanged, since the output consists only of lowercase-fixed
word characters separated by single spaces with no stopword tokens left. -/
theorem clean_text_idempotent (spanish_stopwords : List (List Char))
    (text : List Char) :
    train_model.clean_text spanish_stopwords
        (train_model.clean_text spanish_stopwords text)
      = train_model.clean_text spanish_stopwords text := by
  rw [clean_text_eq_cleanTextSpec, clean_text_eq_cleanTextSpec]
  exact cleanTextSpec_idem spanish_stopwords text

/-! ## Closed instantiations of the remaining universally quantified claims -/

/-- Witness for C1 at a concrete pipeline and payload. -/
theorem needs_review_iff_max_below_threshold_witness :
    ((predict testPipe testPayload).needs_review = true ↔
        npMax (probaValues (predict testPipe testPayload)) < 0.55) ∧
    npMax (probaValues (predict testPipe testPayload))
        ∈ probaValues (predict testPipe testPayload) ∧
    ∀ v ∈ probaValues (predict testPipe testPayload),
        v ≤ npMax (probaValues (predict testPipe testPayload)) :=
  needs_review_iff_max_below_threshold testPipe testPayload

/-- Witness for C3 at a concrete pipeline and payload. -/
theorem priority_is_first_argmax_label_witness :
    (predict testPipe testPayload).proba.map Prod.fst = LABELS testPipe ∧
    (predict testPipe testPayload).priority
        = (LABELS testPipe).getD
            (npArgmax (probaValues (predict testPipe testPayload))) "" ∧
    (probaValues (predict testPipe testPayload)).getD
        (npArgmax (probaValues (predict testPipe testPayload))) 0
        = npMax (probaValues (predict testPipe testPayload)) ∧
    (∀ j, j < npArgmax (probaValues (predict testPipe testPayload)) →
        (probaValues (predict testPipe testPayload)).getD j 0
          < npMax (probaValues (predict testPipe testPayload))) ∧
    (predict testPipe testPayload).priority ∈ LABELS testPipe :=
  priority_is_first_argmax_label testPipe testPayload
